import Mathlib

/-!
Verification of the Narration-to-Audio Alignment & Segmentation Engine.

Shallow embedding of the alignment, subtitle-splitting and scene-splitting
code (src/python/alignment.py, src/python/subtitle_generator.py,
src/python/pipeline.py).  Text is modelled as `List Char`; millisecond
timestamps as `Int`.  Python's real-valued ratio arithmetic
(`int(a / b * c)`, `round(a / b)`) is modelled exactly over the rationals,
i.e. as floor / round-half-to-even of the exact quotient; IEEE-754 rounding
of the source can deviate only in extreme corner cases, and it agrees with
the exact value on every concrete input used below (checked by hand).
-/

/-- The whitespace characters recognised by Python `str.strip` / `str.split`
and the regex class backslash-s, restricted to the ASCII range (the inputs
of this engine contain no exotic Unicode whitespace). -/
def isSpaceChar (c : Char) : Bool :=
  c == ' ' || c == '\t' || c == '\n' || c == '\r' ||
  c == Char.ofNat 11 || c == Char.ofNat 12

/-- The punctuation set `PUNCTUATION_MARKS = {'.', ',', '!', '?'}` of
subtitle_generator.py. -/
def isPunctChar (c : Char) : Bool :=
  c == '.' || c == ',' || c == '!' || c == '?'

/-- Characters removed by `normalize_korean` (alignment.py line 167):
whitespace plus `, . ! ? ' " ~ · …`. -/
def isNormRemoved (c : Char) : Bool :=
  isSpaceChar c || c == ',' || c == '.' || c == '!' || c == '?' ||
  c == Char.ofNat 39 || c == Char.ofNat 34 || c == '~' || c == '·' || c == '…'

/-- `normalize_korean` (alignment.py lines 163-168): drop whitespace and the
fixed punctuation set. -/
def normalize_korean (t : List Char) : List Char :=
  t.filter (fun c => !(isNormRemoved c))

/-- The non-whitespace characters of a text, in order (used to state the
reconstruction property). -/
def nsc (t : List Char) : List Char :=
  t.filter (fun c => !(isSpaceChar c))

/-- Python `str.strip()`: remove leading and trailing whitespace. -/
def strip (t : List Char) : List Char :=
  (((t.dropWhile isSpaceChar).reverse).dropWhile isSpaceChar).reverse

/-- Worker for `splitWs`: scan the characters, accumulating the current
token and the finished tokens (Python `str.split()`). -/
def splitWsAux : List Char → List Char → List (List Char) → List (List Char)
  | [], cur, acc => if cur = [] then acc else acc ++ [cur]
  | c :: rest, cur, acc =>
    if isSpaceChar c then
      if cur = [] then splitWsAux rest [] acc
      else splitWsAux rest [] (acc ++ [cur])
    else splitWsAux rest (cur ++ [c]) acc

/-- Python `str.split()` with no argument: split on runs of whitespace,
discarding empty tokens. -/
def splitWs (t : List Char) : List (List Char) :=
  splitWsAux t [] []

/-- Python `" ".join(tokens)`. -/
def joinSpace : List (List Char) → List Char
  | [] => []
  | [x] => x
  | x :: xs => x ++ ' ' :: joinSpace xs

/-- Cumulative sums: `cumsum xs a` lists the partial sums of `xs` starting
at `a`, excluding the grand total (the `word_char_cumsum` list of
alignment.py lines 199-203). -/
def cumsum : List Nat → Nat → List Nat
  | [], _ => []
  | x :: xs, a => a :: cumsum xs (a + x)

/-- Python `round` on the exact rational `num / den`: round half to even.
`den = 0` (a `ZeroDivisionError` in the source, never reached in the claims)
is mapped to `0`. -/
def pyRound (num den : Nat) : Nat :=
  if den = 0 then 0
  else
    let q := num / den
    let r := num % den
    if 2 * r < den then q
    else if den < 2 * r then q + 1
    else if q % 2 = 0 then q else q + 1

/-- `WordTimestamp` (alignment.py lines 13-28), with the derived
millisecond fields as the model's ground truth (the float seconds of the
source exist only to produce these integers). -/
structure WordTimestamp where
  word : List Char
  start_ms : Int
  end_ms : Int
deriving DecidableEq

instance : Inhabited WordTimestamp := ⟨⟨[], 0, 0⟩⟩

/-- `SegmentTimestamp` (alignment.py lines 31-44). -/
structure SegmentTimestamp where
  text : List Char
  start_ms : Int
  end_ms : Int
deriving DecidableEq

/-- The start-word scan of `map_narration_to_words` (alignment.py lines
222-227): `start = 0; for j, cc in enumerate(cum): if cc >= target:
start = max(0, j-1); break; start = j`.  `acc` carries the running value of
`start_word_idx`, `j` the enumeration index; `Nat` subtraction realises the
`max 0` clamp. -/
def startScan : List Nat → Nat → Nat → Nat → Nat
  | [], _, _, acc => acc
  | cc :: rest, tgt, j, _ =>
    if tgt ≤ cc then j - 1 else startScan rest tgt (j + 1) j

/-- The end-word scan of `map_narration_to_words` (alignment.py lines
234-239): like `startScan` but starting from `start_word_idx` and clamping
the break value to `max start (j-1)`. -/
def endScan : List Nat → Nat → Nat → Nat → Nat → Nat
  | [], _, _, _, acc => acc
  | cc :: rest, tgt, s, j, _ =>
    if tgt ≤ cc then max s (j - 1) else endScan rest tgt s (j + 1) j

/-- The start-word index of a non-empty unit (alignment.py lines 217-227):
`target = int(offset / ts * ta)` (modelled as the exact floor
`offset * ta / ts`, with the source's `ts > 0` guard), then `startScan`. -/
def alignStartIdx (cum : List Nat) (ts ta offset : Nat) : Nat :=
  startScan cum (if 0 < ts then offset * ta / ts else 0) 0 0

/-- The end-word index of a non-empty unit (alignment.py lines 229-243):
`end_ratio` falls back to 1 when `ts = 0`, then `endScan` and the final
`if end < start: end = start` clamp. -/
def alignEndIdx (cum : List Nat) (ts ta offset nchars s : Nat) : Nat :=
  let e0 := endScan cum
    (if 0 < ts then (offset + nchars) * ta / ts else ta) s 0 s
  if e0 < s then s else e0

/-- The emitted end of a non-empty unit (alignment.py lines 246-251): the
end word's `end_ms`, overridden to `words[-1].end_ms` for the last unit. -/
def alignEndMs (words : List WordTimestamp) (cum : List Nat)
    (ts ta offset : Nat) (narr : List Char) (isLast : Bool) : Int :=
  if isLast then (words.getLastD default).end_ms
  else (words.getD (alignEndIdx cum ts ta offset (normalize_korean narr).length
    (alignStartIdx cum ts ta offset)) default).end_ms

/-- The per-section loop of `map_narration_to_words` (alignment.py lines
208-254).  `offset` is `script_char_offset`; `prev` is the end of the
previously emitted range (initially `words[0].start_ms`); the last section
is recognised by `rest` being empty. -/
def alignLoop (words : List WordTimestamp) (cum : List Nat) (ts ta : Nat) :
    List (List Char) → Nat → Int → List (Int × Int)
  | [], _, _ => []
  | narr :: rest, offset, prev =>
    if strip narr = [] then
      (prev, prev) :: alignLoop words cum ts ta rest offset prev
    else
      let endMs := alignEndMs words cum ts ta offset narr rest.isEmpty
      ((words.getD (alignStartIdx cum ts ta offset) default).start_ms, endMs) ::
        alignLoop words cum ts ta rest
          (offset + (normalize_korean narr).length) endMs

/-- `map_narration_to_words` (alignment.py lines 171-256). -/
def map_narration_to_words (narration_sections : List (List Char))
    (words : List WordTimestamp) : List (Int × Int) :=
  if words = [] then narration_sections.map (fun _ => (0, 0))
  else if narration_sections = [] then []
  else
    let ts := ((narration_sections.filter (fun n => strip n ≠ [])).map
      (fun n => (normalize_korean n).length)).sum
    let ta := (words.map (fun w => (normalize_korean w.word).length)).sum
    let cum := cumsum (words.map (fun w => (normalize_korean w.word).length)) 0
    alignLoop words cum ts ta narration_sections 0
      ((words.headD default).start_ms)

/-- Worker for `_split_on_punctuation` (subtitle_generator.py lines
194-215): scan the characters, closing the current chunk at every
punctuation mark; stripped chunks are kept only when non-empty. -/
def splitOnPunctuationAux : List Char → List Char → List (List Char) →
    List (List Char)
  | [], cur, parts =>
    let r := strip cur
    if r = [] then parts else parts ++ [r]
  | c :: rest, cur, parts =>
    if isPunctChar c then
      let p := strip (cur ++ [c])
      splitOnPunctuationAux rest [] (if p = [] then parts else parts ++ [p])
    else splitOnPunctuationAux rest (cur ++ [c]) parts

/-- `_split_on_punctuation` (subtitle_generator.py lines 194-215): `some`
of the parts when the scan produced more than one, `none` otherwise. -/
def splitOnPunctuation (t : List Char) : Option (List (List Char)) :=
  let parts := splitOnPunctuationAux t [] []
  if 1 < parts.length then some parts else none

/-- `_split_text_recursive` (subtitle_generator.py lines 112-134), with a
fuel parameter making the recursion structural: every recursive call of the
source is on a strictly shorter text, so fuel `t.length + 1` (supplied by
`split_text_only`) reproduces the source exactly.  The source's word-count
test is `len(words) >= max_words`; for `max_words = 0` that test always
holds and the source recursion does not terminate, so the model adds
`1 ≤ maxWords` to the test (all claims assume `max_words ≥ 1`). -/
def splitTextRecF : Nat → Nat → List Char → List (List Char)
  | 0, _, _ => []
  | fuel + 1, mw, text =>
    let t := strip text
    if t = [] then []
    else
      match splitOnPunctuation t with
      | some parts => parts.flatMap (fun p => splitTextRecF fuel mw p)
      | none =>
        let ws := splitWs t
        if 1 ≤ mw ∧ mw ≤ ws.length then
          joinSpace (ws.take mw) :: splitTextRecF fuel mw (joinSpace (ws.drop mw))
        else [t]

/-- `split_text_only` (subtitle_generator.py lines 101-109). -/
def split_text_only (text : List Char) (maxWords : Nat) : List (List Char) :=
  let t := strip text
  if t = [] then [] else splitTextRecF (t.length + 1) maxWords t

/-- The in-window word filter of `build_whisper_subtitles`
(subtitle_generator.py lines 49-52): words whose span lies inside the
segment's range widened by 200 ms on each side. -/
def segWordsOf (seg : SegmentTimestamp) (words : List WordTimestamp) :
    List WordTimestamp :=
  words.filter (fun w =>
    seg.start_ms - 200 ≤ w.start_ms && w.end_ms ≤ seg.end_ms + 200)

/-- The `end_word_idx` computation of one part (subtitle_generator.py lines
67-77): `len(seg_words) - 1` for the last part, otherwise
`min(word_idx + expected - 1, len(seg_words) - 1)` with
`expected = max(1, round(c / total * len(seg_words)))`, followed by the two
clamps of lines 74-77.  `round(c / total * nw)` is modelled as the exact
half-to-even rounding `pyRound (c * nw) total`. -/
def distEnd (c : Nat) (isLast : Bool) (total nw wi : Nat) : Nat :=
  let e1 := if isLast then nw - 1
    else min (wi + max 1 (pyRound (c * nw) total) - 1) (nw - 1)
  let e2 := if e1 < wi then wi else e1
  if nw ≤ e2 then nw - 1 else e2

/-- The `word_idx = end_word_idx + 1` advance with the final clamp back to
`len(seg_words) - 1` (subtitle_generator.py lines 85-87). -/
def distNext (e nw : Nat) : Nat :=
  if nw ≤ e + 1 then nw - 1 else e + 1

/-- The word-distribution loop of `build_whisper_subtitles`
(subtitle_generator.py lines 65-87), abstracted to the per-part word-count
list: emits the `(word_idx, end_word_idx)` pair of each part.  `nw` is
`len(seg_words)`, `wi` the running `word_idx`; the last part is recognised
by `rest` being empty. -/
def distIdx : List Nat → Nat → Nat → Nat → List (Nat × Nat)
  | [], _, _, _ => []
  | c :: rest, total, nw, wi =>
    (wi, distEnd c rest.isEmpty total nw wi) ::
      distIdx rest total nw (distNext (distEnd c rest.isEmpty total nw wi) nw)

/-- The body of the per-segment loop of `build_whisper_subtitles`
(subtitle_generator.py lines 38-87): returns the `(texts, timings)`
contribution of one segment (empty when the segment text or its split is
empty, mirroring the source's `continue`). -/
def segSubtitles (seg : SegmentTimestamp) (words : List WordTimestamp)
    (maxWords : Nat) : List (List Char) × List (Int × Int) :=
  let text := strip seg.text
  if text = [] then ([], [])
  else
    let parts := split_text_only text maxWords
    if parts = [] then ([], [])
    else
      let segWords := segWordsOf seg words
      if parts.length = 1 ∨ segWords = [] then
        (parts, parts.map (fun _ => (seg.start_ms, seg.end_ms)))
      else
        let counts := parts.map (fun p => max (splitWs p).length 1)
        let idxs := distIdx counts counts.sum segWords.length 0
        (parts, idxs.map (fun pr =>
          ((segWords.getD pr.1 default).start_ms,
           (segWords.getD pr.2 default).end_ms)))

/-- `build_whisper_subtitles` (subtitle_generator.py lines 14-89): the two
parallel output lists, accumulated segment by segment. -/
def build_whisper_subtitles (segments : List SegmentTimestamp)
    (words : List WordTimestamp) (maxWords : Nat) :
    List (List Char) × List (Int × Int) :=
  (segments.flatMap (fun s => (segSubtitles s words maxWords).1),
   segments.flatMap (fun s => (segSubtitles s words maxWords).2))

/-- `ScriptSection` as used by `split_long_scenes` (pipeline.py): only the
`directives` and `narration` fields matter to the splitting logic (the
`name` field is a format string over the original name and the sub-index,
orthogonal to every claim, and `narration_lines` duplicates `narration`). -/
structure ScriptSection where
  directives : List (List Char)
  narration : List Char
deriving DecidableEq

instance : Inhabited ScriptSection := ⟨⟨[], []⟩⟩

/-- The word slice `scene_words[w_start:w_end]` of sub-scene `sub_idx`
(pipeline.py lines 120-126): `w_start = sub_idx * words_per_sub` and
`w_end = (sub_idx+1) * words_per_sub`, except that the last sub-scene
(`sub_idx = num_subs - 1`) absorbs the remainder. -/
def sceneChunk (sceneWords : List WordTimestamp) (wps numSubs subIdx : Nat) :
    List WordTimestamp :=
  (sceneWords.drop (subIdx * wps)).take
    ((if subIdx < numSubs - 1 then (subIdx + 1) * wps
      else sceneWords.length) - subIdx * wps)

/-- One emitted sub-scene (pipeline.py lines 126-140): narration is the
space-joined chunk text, the timing is the chunk's first `start_ms` and
last `end_ms`, and only the first sub-scene inherits the directives. -/
def sceneSub (sec : ScriptSection) (sceneWords : List WordTimestamp)
    (wps numSubs subIdx : Nat) : ScriptSection × (Int × Int) :=
  (⟨if subIdx = 0 then sec.directives else [],
    joinSpace ((sceneChunk sceneWords wps numSubs subIdx).map
      (fun w => w.word))⟩,
   (((sceneChunk sceneWords wps numSubs subIdx).headD default).start_ms,
    ((sceneChunk sceneWords wps numSubs subIdx).getLastD default).end_ms))

/-- The sub-scene emission loop of `split_long_scenes` (pipeline.py lines
119-140): `for sub_idx in range(num_subs)` with the early `break` once
`w_start` runs past the word list.  The loop is realised structurally by
counting the `rem`aining iterations (`rem = num_subs - sub_idx`; the
top-level call of `processScene` passes `rem = num_subs`, `sub_idx = 0`). -/
def sceneLoop (sec : ScriptSection) (sceneWords : List WordTimestamp)
    (wps numSubs : Nat) : Nat → Nat → List (ScriptSection × (Int × Int))
  | 0, _ => []
  | rem + 1, subIdx =>
    if sceneWords.length ≤ subIdx * wps then []
    else
      sceneSub sec sceneWords wps numSubs subIdx ::
        sceneLoop sec sceneWords wps numSubs rem (subIdx + 1)

/-- The per-scene body of `split_long_scenes` (pipeline.py lines 93-140).
The duration test `duration <= target_duration_ms * 1.3` is modelled
exactly as `10 * duration ≤ 13 * target`; `round(duration / target)` as
exact half-to-even rounding (both agree with the source's float arithmetic
on all concrete inputs used below). -/
def processScene (sec : ScriptSection) (timing : Int × Int)
    (words : List WordTimestamp) (target : Int) :
    List (ScriptSection × (Int × Int)) :=
  let duration := timing.2 - timing.1
  if 10 * duration ≤ 13 * target then [(sec, timing)]
  else
    let sceneWords := words.filter (fun w =>
      timing.1 - 200 ≤ w.start_ms && w.end_ms ≤ timing.2 + 200)
    if sceneWords = [] then [(sec, timing)]
    else
      let numSubs := max 2 (pyRound duration.toNat target.toNat)
      let wps := max 1 (sceneWords.length / numSubs)
      sceneLoop sec sceneWords wps numSubs numSubs 0

/-- `split_long_scenes` (pipeline.py lines 72-142), with the two parallel
result lists fused into one list of `(section, timing)` pairs (the source
appends to `new_sections` and `new_timings` in lockstep). -/
def split_long_scenes (sections : List ScriptSection)
    (scene_timings : List (Int × Int)) (words : List WordTimestamp)
    (target_duration_ms : Int) : List (ScriptSection × (Int × Int)) :=
  (sections.zip scene_timings).flatMap
    (fun p => processScene p.1 p.2 words target_duration_ms)

/-- Claim C1, counterexample.  On `words = [("가",0,500),("나",500,1000),
("다",1000,1500)]` and `units = ["가","나다"]` the aligner does NOT return
`[(0,500),(500,1500)]`: the source's scan takes `max 0 (j-1)` at the first
`j` with `cum[j] ≥ target_start_chars` (here `j = 1`, `target = 1`), so the
second unit starts at word index 0, not at the largest index with
`cum[i] ≤ target` as the claim states. -/
theorem C1_counterexample :
    map_narration_to_words [['가'], ['나', '다']]
      [⟨['가'], 0, 500⟩, ⟨['나'], 500, 1000⟩, ⟨['다'], 1000, 1500⟩] =
      [(0, 500), (0, 1500)] ∧
    map_narration_to_words [['가'], ['나', '다']]
      [⟨['가'], 0, 500⟩, ⟨['나'], 500, 1000⟩, ⟨['다'], 1000, 1500⟩] ≠
      [(0, 500), (500, 1500)] := by
  constructor
  · decide
  · decide

/-- Claim C1, amended.  The start word index of a non-empty unit is
`max 0 (j - 1)` for the smallest `j` with `cum[j] ≥ target_start_chars`
(the last word index when no such `j` exists); on the scenario's second
unit (`target = 1`, `cum = [0,1,2]`) this gives index 0, and the output is
`[(0,500),(0,1500)]`. -/
theorem C1_amended_eval :
    startScan [0, 1, 2] 1 0 0 = 0 ∧
    map_narration_to_words [['가'], ['나', '다']]
      [⟨['가'], 0, 500⟩, ⟨['나'], 500, 1000⟩, ⟨['다'], 1000, 1500⟩] =
      [(0, 500), (0, 1500)] := by
  constructor
  · decide
  · decide

/-- Claim C2, counterexample.  With `words = [("가",0,500),(".",500,1000)]`
and a whitespace-only last unit, the last emitted range is the zero-width
`(500,500)` (the blank-unit branch runs `continue` before the tail
extension), so its end is 500 ≠ `words[-1].end_ms = 1000`. -/
theorem C2_counterexample :
    map_narration_to_words [['가'], []]
      [⟨['가'], 0, 500⟩, ⟨['.'], 500, 1000⟩] = [(0, 500), (500, 500)] ∧
    ((map_narration_to_words [['가'], []]
        [⟨['가'], 0, 500⟩, ⟨['.'], 500, 1000⟩]).getLastD (0, 0)).2 ≠
      ([⟨['가'], 0, 500⟩, ⟨['.'], 500, 1000⟩].getLastD
        (default : WordTimestamp)).end_ms := by
  constructor
  · decide
  · decide

/-- Claim C3, counterexample.  Words ordered by `start_ms` with
`start_ms ≤ end_ms` each, yet the emitted ends decrease (2000 then 1100):
word end times need not be non-decreasing, so neither are the result ends. -/
theorem C3_counterexample :
    List.Pairwise (fun a b => a.start_ms ≤ b.start_ms)
      [⟨['가', '가'], 0, 2000⟩, ⟨['나'], 1000, 1100⟩,
       (⟨['다'], 1000, 3000⟩ : WordTimestamp)] ∧
    (∀ w ∈ [⟨['가', '가'], 0, 2000⟩, ⟨['나'], 1000, 1100⟩,
       (⟨['다'], 1000, 3000⟩ : WordTimestamp)], w.start_ms ≤ w.end_ms) ∧
    map_narration_to_words [['가', '가'], ['나'], ['다']]
      [⟨['가', '가'], 0, 2000⟩, ⟨['나'], 1000, 1100⟩, ⟨['다'], 1000, 3000⟩] =
      [(0, 2000), (0, 1100), (1000, 3000)] ∧
    ¬ (((map_narration_to_words [['가', '가'], ['나'], ['다']]
        [⟨['가', '가'], 0, 2000⟩, ⟨['나'], 1000, 1100⟩,
         ⟨['다'], 1000, 3000⟩]).getD 0 (0, 0)).2 ≤
      ((map_narration_to_words [['가', '가'], ['나'], ['다']]
        [⟨['가', '가'], 0, 2000⟩, ⟨['나'], 1000, 1100⟩,
         ⟨['다'], 1000, 3000⟩]).getD 1 (0, 0)).2) := by
  refine ⟨by decide, by decide, by decide, by decide⟩

/-- Claim C4, counterexample.  A non-empty word list whose every word
normalizes to empty (`total_audio_chars = 0`) is NOT treated like the
empty-words case: the output is anchored to the word's own timestamps,
`(100,500)`, not `(0,0)`. -/
theorem C4_counterexample :
    map_narration_to_words [['가']] [⟨['.'], 100, 500⟩] = [(100, 500)] ∧
    map_narration_to_words [['가']] [⟨['.'], 100, 500⟩] ≠
      [((0 : Int), (0 : Int))] := by
  constructor
  · decide
  · decide

/-- Claim C4, amended.  If the word list is empty the aligner returns
`(0,0)` for every unit, and no division by zero occurs in either degenerate
case (the only division is by `total_script_chars` and is guarded); but
when words are non-empty and `total_audio_chars = 0`, the output is derived
from the word timestamps (here `(100,500)`), not `(0,0)`. -/
theorem C4_amended :
    (∀ sections : List (List Char),
      map_narration_to_words sections [] = sections.map (fun _ => (0, 0))) ∧
    map_narration_to_words [['가']] [⟨['.'], 100, 500⟩] = [(100, 500)] := by
  constructor
  · intro sections
    simp [map_narration_to_words]
  · decide

/-- Claim C5, counterexample.  Scene `(0,100000)` with
`target_duration_ms = 15000` is split into sub-scenes whose word chunks are
formed by count, not duration: the emitted sub-scene `(200,100000)` has
duration 99800, far above `15000 × 1.3 + 400 = 19900` (and above the bound
for any tolerance `ε` up to 80300). -/
theorem C5_counterexample :
    (processScene ⟨[], ['가']⟩ (0, 100000)
        [⟨['가'], 0, 100⟩, ⟨['나'], 100, 200⟩, ⟨['다'], 200, 100000⟩]
        15000).map (fun p => p.2) =
      [(0, 100), (100, 200), (200, 100000)] ∧
    ¬ ((100000 : Int) - 200 ≤ 15000 * 13 / 10 + 400) := by
  constructor
  · decide
  · decide

/-- Claim C6, counterexample.  Segment `"a. b. c"` (three parts) with only
two in-window words: the distributor's `word_idx` is clamped back to
`len(seg_words) - 1` once the words are exhausted, so the third part reuses
word index 1 — its range starts AT the previous part's last word, not after
it, and the per-part index ranges `[(0,0),(1,1),(1,1)]` are not contiguous. -/
theorem C6_counterexample :
    distIdx [1, 1, 1] 3 2 0 = [(0, 0), (1, 1), (1, 1)] ∧
    ¬ (((distIdx [1, 1, 1] 3 2 0).getD 2 (0, 0)).1 =
      ((distIdx [1, 1, 1] 3 2 0).getD 1 (0, 0)).2 + 1) ∧
    (segSubtitles ⟨['a', '.', ' ', 'b', '.', ' ', 'c'], 0, 1000⟩
        [⟨['a'], 0, 500⟩, ⟨['b'], 500, 1000⟩] 9).2 =
      [(0, 500), (500, 1000), (500, 1000)] := by
  refine ⟨by decide, by decide, by decide⟩

theorem cumsum_length (xs : List Nat) (a : Nat) :
    (cumsum xs a).length = xs.length := by
  induction xs generalizing a with
  | nil => rfl
  | cons x t ih => simp [cumsum, ih]

theorem startScan_le_max (cum : List Nat) (tgt j acc : Nat) :
    startScan cum tgt j acc ≤ max acc (j + cum.length - 1) := by
  induction cum generalizing j acc with
  | nil => simp [startScan]
  | cons cc rest ih =>
    simp only [startScan, List.length_cons]
    split
    · rw [le_max_iff]; right; omega
    · have h := ih (j + 1) j
      rw [le_max_iff] at h ⊢
      omega

theorem endScan_le_max (cum : List Nat) (tgt s j acc : Nat) :
    endScan cum tgt s j acc ≤ max acc (max s (j + cum.length - 1)) := by
  induction cum generalizing j acc with
  | nil => simp [endScan]
  | cons cc rest ih =>
    simp only [endScan, List.length_cons]
    split
    · rw [le_max_iff, le_max_iff]
      omega
    · have h := ih (j + 1) j
      rw [le_max_iff, le_max_iff] at h ⊢
      omega

theorem startScan_lt (cum : List Nat) (tgt : Nat) (h : cum ≠ []) :
    startScan cum tgt 0 0 < cum.length := by
  have hb := startScan_le_max cum tgt 0 0
  have hlen : 0 < cum.length := List.length_pos.mpr h
  rw [le_max_iff] at hb
  omega

theorem endScan_lt (cum : List Nat) (tgt s : Nat) (h : s < cum.length) :
    endScan cum tgt s 0 s < cum.length := by
  have hb := endScan_le_max cum tgt s 0 s
  rw [le_max_iff, le_max_iff] at hb
  omega

theorem getD_mem {α : Type} (l : List α) (i : Nat) (d : α)
    (h : i < l.length) : l.getD i d ∈ l := by
  rw [List.getD_eq_getElem l d h]
  exact List.getElem_mem h

theorem getLastD_eq_getD {α : Type} (l : List α) (d : α) (h : l ≠ []) :
    l.getLastD d = l.getD (l.length - 1) d := by
  have hlt : l.length - 1 < l.length := by
    cases l with
    | nil => cases h rfl
    | cons a tl => simp
  rw [List.getD_eq_getElem l d hlt, List.getLastD_eq_getLast?,
    List.getLast?_eq_getLast l h, Option.getD_some, List.getLast_eq_getElem]

theorem getLastD_cons_ne {α : Type} (x : α) (l : List α) (d : α)
    (h : l ≠ []) : (x :: l).getLastD d = l.getLastD d := by
  rw [getLastD_eq_getD (x :: l) d (by simp), getLastD_eq_getD l d h]
  cases l with
  | nil => cases h rfl
  | cons b tl => simp [List.getD_cons_succ]

theorem pairwise_getD_mono {α : Type} (f : α → Int) (l : List α)
    (h : l.Pairwise (fun a b => f a ≤ f b)) (i j : Nat) (d : α)
    (hij : i ≤ j) (hj : j < l.length) : f (l.getD i d) ≤ f (l.getD j d) := by
  rcases Nat.lt_or_ge i j with hlt | hge
  · rw [List.getD_eq_getElem l d (Nat.lt_trans hlt hj),
      List.getD_eq_getElem l d hj]
    exact List.pairwise_iff_getElem.mp h i j (Nat.lt_trans hlt hj) hj hlt
  · have heq : i = j := Nat.le_antisymm hij hge
    subst heq
    exact le_refl _

theorem alignLoop_cons (words : List WordTimestamp) (cum : List Nat)
    (ts ta : Nat) (narr : List Char) (rest : List (List Char))
    (offset : Nat) (prev : Int) :
    alignLoop words cum ts ta (narr :: rest) offset prev =
      if strip narr = [] then
        (prev, prev) :: alignLoop words cum ts ta rest offset prev
      else
        ((words.getD (alignStartIdx cum ts ta offset) default).start_ms,
          alignEndMs words cum ts ta offset narr rest.isEmpty) ::
          alignLoop words cum ts ta rest
            (offset + (normalize_korean narr).length)
            (alignEndMs words cum ts ta offset narr rest.isEmpty) := rfl

theorem alignLoop_length (words : List WordTimestamp) (cum : List Nat)
    (ts ta : Nat) (secs : List (List Char)) (offset : Nat) (prev : Int) :
    (alignLoop words cum ts ta secs offset prev).length = secs.length := by
  induction secs generalizing offset prev with
  | nil => rfl
  | cons n rest ih =>
    rw [alignLoop_cons]
    split
    · simp [ih]
    · simp [ih]

theorem alignLoop_ne_nil (words : List WordTimestamp) (cum : List Nat)
    (ts ta : Nat) (narr : List Char) (rest : List (List Char))
    (offset : Nat) (prev : Int) :
    alignLoop words cum ts ta (narr :: rest) offset prev ≠ [] := by
  intro h0
  have hlen := alignLoop_length words cum ts ta (narr :: rest) offset prev
  rw [h0] at hlen
  simp at hlen

theorem alignLoop_last_end (words : List WordTimestamp) (cum : List Nat)
    (ts ta : Nat) (secs : List (List Char)) (offset : Nat) (prev : Int)
    (hne : secs ≠ []) (hlast : strip (secs.getLastD []) ≠ []) :
    ((alignLoop words cum ts ta secs offset prev).getLastD (0, 0)).2 =
      (words.getLastD default).end_ms := by
  induction secs generalizing offset prev with
  | nil => cases hne rfl
  | cons n rest ih =>
    cases rest with
    | nil =>
      simp only [List.getLastD_cons, List.getLastD_nil] at hlast
      rw [alignLoop_cons, if_neg hlast]
      simp [alignEndMs, alignLoop]
    | cons m rest2 =>
      have htail : (m :: rest2 : List (List Char)) ≠ [] := by simp
      have hlast2 : strip ((m :: rest2).getLastD []) ≠ [] := by
        rwa [getLastD_cons_ne n (m :: rest2) [] htail] at hlast
      rw [alignLoop_cons]
      split
      · rw [getLastD_cons_ne _ _ _ (alignLoop_ne_nil _ _ _ _ _ _ _ _)]
        exact ih offset prev htail hlast2
      · rw [getLastD_cons_ne _ _ _ (alignLoop_ne_nil _ _ _ _ _ _ _ _)]
        exact ih _ _ htail hlast2

theorem alignEndIdx_lt (cum : List Nat) (ts ta offset nchars s : Nat)
    (h : s < cum.length) :
    alignEndIdx cum ts ta offset nchars s < cum.length := by
  unfold alignEndIdx
  dsimp only
  split <;> split <;>
    first
      | exact h
      | exact endScan_lt cum _ s h

theorem le_alignEndIdx (cum : List Nat) (ts ta offset nchars s : Nat) :
    s ≤ alignEndIdx cum ts ta offset nchars s := by
  unfold alignEndIdx
  dsimp only
  split <;> split <;>
    first
      | exact le_refl s
      | exact Nat.le_of_not_lt (by assumption)

theorem alignLoop_fst_le_snd (words : List WordTimestamp) (cum : List Nat)
    (ts ta : Nat)
    (hsort : List.Pairwise (fun a b => a.start_ms ≤ b.start_ms) words)
    (hwf : ∀ w ∈ words, w.start_ms ≤ w.end_ms)
    (hcum : cum.length = words.length) (hw : words ≠ []) :
    ∀ (secs : List (List Char)) (offset : Nat) (prev : Int),
      ∀ r ∈ alignLoop words cum ts ta secs offset prev, r.1 ≤ r.2 := by
  intro secs
  induction secs with
  | nil =>
    intro offset prev r hr
    simp [alignLoop] at hr
  | cons n rest ih =>
    intro offset prev r hr
    rw [alignLoop_cons] at hr
    have hcumne : cum ≠ [] := by
      intro h0
      rw [h0] at hcum
      exact hw (List.length_eq_zero.mp hcum.symm)
    by_cases hb : strip n = []
    · rw [if_pos hb] at hr
      rcases List.mem_cons.mp hr with h | h
      · subst h; exact le_refl _
      · exact ih offset prev r h
    · rw [if_neg hb] at hr
      rcases List.mem_cons.mp hr with h | h
      · subst h
        have hslt : alignStartIdx cum ts ta offset < words.length := by
          rw [← hcum]
          exact startScan_lt cum _ hcumne
        show (words.getD (alignStartIdx cum ts ta offset) default).start_ms ≤
          alignEndMs words cum ts ta offset n rest.isEmpty
        unfold alignEndMs
        split
        · have hlen1 : words.length - 1 < words.length := by
            cases words with
            | nil => cases hw rfl
            | cons a tl => simp
          rw [getLastD_eq_getD words default hw]
          calc (words.getD (alignStartIdx cum ts ta offset) default).start_ms ≤
                (words.getD (words.length - 1) default).start_ms :=
              pairwise_getD_mono _ words hsort _ _ default (by omega) hlen1
            _ ≤ (words.getD (words.length - 1) default).end_ms :=
              hwf _ (getD_mem words _ default hlen1)
        · have helt : alignEndIdx cum ts ta offset
              (normalize_korean n).length (alignStartIdx cum ts ta offset) <
              words.length := by
            rw [← hcum]
            exact alignEndIdx_lt cum ts ta offset _ _ (hcum ▸ hslt)
          calc (words.getD (alignStartIdx cum ts ta offset) default).start_ms ≤
              (words.getD (alignEndIdx cum ts ta offset
                (normalize_korean n).length
                (alignStartIdx cum ts ta offset)) default).start_ms :=
              pairwise_getD_mono _ words hsort _ _ default
                (le_alignEndIdx cum ts ta offset _ _) helt
            _ ≤ _ := hwf _ (getD_mem words _ default helt)
      · exact ih _ _ r h

/-- Claim C2, amended.  When `words` is non-empty and the LAST narration
unit is not empty/whitespace-only, the last emitted TimeRange's `end_ms`
equals `words[-1].end_ms` (tail extension); a blank last unit instead
repeats the previous end, which can be earlier (see `C2_counterexample`). -/
theorem C2_amended (sections : List (List Char)) (words : List WordTimestamp)
    (hw : words ≠ []) (hlast : strip (sections.getLastD []) ≠ []) :
    ((map_narration_to_words sections words).getLastD (0, 0)).2 =
      (words.getLastD default).end_ms := by
  have hs : sections ≠ [] := by
    intro h0
    subst h0
    exact hlast rfl
  unfold map_narration_to_words
  rw [if_neg hw, if_neg hs]
  exact alignLoop_last_end words _ _ _ sections 0 _ hs hlast

/-- Witness for C2_amended at a concrete input. -/
theorem C2_amended_witness :
    ([⟨['가'], 0, 500⟩] : List WordTimestamp) ≠ [] ∧
    strip (([['가']] : List (List Char)).getLastD []) ≠ [] ∧
    ((map_narration_to_words [['가']] [⟨['가'], 0, 500⟩]).getLastD (0, 0)).2 =
      (([⟨['가'], 0, 500⟩] : List WordTimestamp).getLastD default).end_ms :=
  ⟨by decide, by decide, C2_amended [['가']] [⟨['가'], 0, 500⟩]
    (by decide) (by decide)⟩

/-- Claim C3, amended.  For words ordered by `start_ms` non-decreasing with
`start_ms ≤ end_ms` each, every TimeRange produced by the aligner satisfies
`start_ms ≤ end_ms`; but the ends of consecutive ranges need NOT be
non-decreasing (see `C3_counterexample`), because word `end_ms` values are
not monotone under the stated input ordering. -/
theorem C3_amended (sections : List (List Char)) (words : List WordTimestamp)
    (hsort : List.Pairwise (fun a b => a.start_ms ≤ b.start_ms) words)
    (hwf : ∀ w ∈ words, w.start_ms ≤ w.end_ms) :
    ∀ r ∈ map_narration_to_words sections words, r.1 ≤ r.2 := by
  intro r hr
  by_cases hw : words = []
  · subst hw
    unfold map_narration_to_words at hr
    rw [if_pos rfl] at hr
    rcases List.mem_map.mp hr with ⟨a, _, ha⟩
    rw [← ha]
  · by_cases hsec : sections = []
    · subst hsec
      unfold map_narration_to_words at hr
      rw [if_neg hw, if_pos rfl] at hr
      simp at hr
    · unfold map_narration_to_words at hr
      rw [if_neg hw, if_neg hsec] at hr
      exact alignLoop_fst_le_snd words _ _ _ hsort hwf
        (by rw [cumsum_length, List.length_map]) hw sections 0 _ r hr

/-- Witness for C3_amended at a concrete input. -/
theorem C3_amended_witness :
    List.Pairwise (fun a b => a.start_ms ≤ b.start_ms)
      ([⟨['가'], 0, 500⟩, ⟨['나'], 500, 1000⟩] : List WordTimestamp) ∧
    (∀ w ∈ ([⟨['가'], 0, 500⟩, ⟨['나'], 500, 1000⟩] : List WordTimestamp),
      w.start_ms ≤ w.end_ms) ∧
    ∀ r ∈ map_narration_to_words [['가'], ['나']]
      [⟨['가'], 0, 500⟩, ⟨['나'], 500, 1000⟩], r.1 ≤ r.2 :=
  ⟨by decide, by decide, C3_amended [['가'], ['나']]
    [⟨['가'], 0, 500⟩, ⟨['나'], 500, 1000⟩] (by decide) (by decide)⟩

theorem distEnd_lt (c : Nat) (b : Bool) (total nw wi : Nat) (hnw : 0 < nw) :
    distEnd c b total nw wi < nw := by
  unfold distEnd
  dsimp only
  split_ifs <;>
    first
      | omega
      | exact Nat.lt_of_not_le (by assumption)

theorem le_distEnd (c : Nat) (b : Bool) (total nw wi : Nat)
    (hwi : wi ≤ nw - 1) : wi ≤ distEnd c b total nw wi := by
  unfold distEnd
  dsimp only
  split_ifs <;>
    first
      | exact hwi
      | exact le_refl wi
      | exact Nat.le_of_not_lt (by assumption)

theorem distNext_le (e nw : Nat) (hnw : 0 < nw) : distNext e nw ≤ nw - 1 := by
  unfold distNext
  split_ifs <;> omega

theorem le_distNext (e nw wi : Nat) (hwi : wi ≤ nw - 1) (he : wi ≤ e) :
    wi ≤ distNext e nw := by
  unfold distNext
  split_ifs <;> omega

theorem distIdx_mem_lt (counts : List Nat) (total nw : Nat) (hnw : 0 < nw) :
    ∀ wi, wi ≤ nw - 1 → ∀ p ∈ distIdx counts total nw wi,
      p.1 < nw ∧ p.2 < nw := by
  induction counts with
  | nil =>
    intro wi hwi p hp
    simp [distIdx] at hp
  | cons c rest ih =>
    intro wi hwi p hp
    simp only [distIdx] at hp
    rcases List.mem_cons.mp hp with h | h
    · subst h
      exact ⟨by omega, distEnd_lt c rest.isEmpty total nw wi hnw⟩
    · exact ih (distNext (distEnd c rest.isEmpty total nw wi) nw)
        (distNext_le _ nw hnw) p h

/-- Claim C9.  Every word index computed by proportional mapping stays
inside `[0, len-1]` before it is used to index the word list: the aligner's
start index is `< len(cum) = len(words)` (and `≥ 0` as a natural number),
its end index lies between the start index and `len - 1`, and every
`(word_idx, end_word_idx)` pair of the distributor lies below
`len(seg_words)` — so with a non-empty word list no out-of-bounds access
can occur. -/
theorem C9_index_bounds :
    (∀ (cum : List Nat) (ts ta offset : Nat), cum ≠ [] →
      alignStartIdx cum ts ta offset < cum.length) ∧
    (∀ (cum : List Nat) (ts ta offset nchars s : Nat), s < cum.length →
      s ≤ alignEndIdx cum ts ta offset nchars s ∧
      alignEndIdx cum ts ta offset nchars s < cum.length) ∧
    (∀ (counts : List Nat) (total nw wi : Nat), 0 < nw → wi ≤ nw - 1 →
      ∀ p ∈ distIdx counts total nw wi, p.1 < nw ∧ p.2 < nw) := by
  refine ⟨?_, ?_, ?_⟩
  · intro cum ts ta offset h
    exact startScan_lt cum _ h
  · intro cum ts ta offset nchars s h
    exact ⟨le_alignEndIdx cum ts ta offset nchars s,
      alignEndIdx_lt cum ts ta offset nchars s h⟩
  · intro counts total nw wi h1 h2
    exact distIdx_mem_lt counts total nw h1 wi h2

/-- Witness for C9_index_bounds at concrete inputs. -/
theorem C9_index_bounds_witness :
    (([0, 1, 2] : List Nat) ≠ [] ∧
      alignStartIdx [0, 1, 2] 3 3 1 < ([0, 1, 2] : List Nat).length) ∧
    ((1 : Nat) < ([0, 1, 2] : List Nat).length ∧
      1 ≤ alignEndIdx [0, 1, 2] 3 3 1 2 1 ∧
      alignEndIdx [0, 1, 2] 3 3 1 2 1 < ([0, 1, 2] : List Nat).length) ∧
    ((0 : Nat) < 2 ∧ (0 : Nat) ≤ 2 - 1 ∧
      ∀ p ∈ distIdx [1, 1, 1] 3 2 0, p.1 < 2 ∧ p.2 < 2) :=
  ⟨⟨by decide, C9_index_bounds.1 [0, 1, 2] 3 3 1 (by decide)⟩,
   ⟨by decide, C9_index_bounds.2.1 [0, 1, 2] 3 3 1 2 1 (by decide)⟩,
   ⟨by decide, by decide, C9_index_bounds.2.2 [1, 1, 1] 3 2 0
     (by decide) (by decide)⟩⟩

theorem headD_mem {α : Type} (l : List α) (d : α) (h : l ≠ []) :
    l.headD d ∈ l := by
  cases l with
  | nil => cases h rfl
  | cons a t => simp

theorem getLastD_mem {α : Type} (l : List α) (d : α) (h : l ≠ []) :
    l.getLastD d ∈ l := by
  have hlt : l.length - 1 < l.length := by
    cases l with
    | nil => cases h rfl
    | cons a t => simp
  rw [getLastD_eq_getD l d h]
  exact getD_mem l _ d hlt

theorem headD_take {α : Type} (l : List α) (k : Nat) (d : α) (hk : 1 ≤ k) :
    (l.take k).headD d = l.headD d := by
  cases l with
  | nil => simp
  | cons a t =>
    cases k with
    | zero => omega
    | succ k2 => simp

theorem headD_drop {α : Type} (l : List α) (n : Nat) (d : α) :
    (l.drop n).headD d = l.getD n d := by
  induction l generalizing n with
  | nil => simp
  | cons a t ih =>
    cases n with
    | zero => simp
    | succ n2 => simpa using ih n2

theorem take_ne_nil_of {α : Type} (l : List α) (k : Nat) (hl : l ≠ [])
    (hk : 1 ≤ k) : l.take k ≠ [] := by
  cases l with
  | nil => cases hl rfl
  | cons a t =>
    cases k with
    | zero => omega
    | succ k2 => simp

theorem sceneChunk_len_ge (sw : List WordTimestamp) (wps numSubs subIdx : Nat)
    (hwps : 1 ≤ wps) (hlt : subIdx * wps < sw.length) :
    1 ≤ (if subIdx < numSubs - 1 then (subIdx + 1) * wps
      else sw.length) - subIdx * wps := by
  split
  · rw [Nat.succ_mul]
    omega
  · omega

theorem sceneChunk_ne_nil (sw : List WordTimestamp) (wps numSubs subIdx : Nat)
    (hwps : 1 ≤ wps) (hlt : subIdx * wps < sw.length) :
    sceneChunk sw wps numSubs subIdx ≠ [] := by
  unfold sceneChunk
  refine take_ne_nil_of _ _ ?_ (sceneChunk_len_ge sw wps numSubs subIdx hwps hlt)
  intro h0
  have := congrArg List.length h0
  simp [List.length_drop] at this
  omega

theorem sceneChunk_subset (sw : List WordTimestamp) (wps numSubs subIdx : Nat) :
    ∀ x ∈ sceneChunk sw wps numSubs subIdx, x ∈ sw := by
  intro x hx
  unfold sceneChunk at hx
  exact List.drop_subset _ _ (List.take_subset _ _ hx)

theorem sceneChunk_headD (sw : List WordTimestamp) (wps numSubs subIdx : Nat)
    (hwps : 1 ≤ wps) (hlt : subIdx * wps < sw.length) :
    (sceneChunk sw wps numSubs subIdx).headD default =
      sw.getD (subIdx * wps) default := by
  unfold sceneChunk
  rw [headD_take _ _ _ (sceneChunk_len_ge sw wps numSubs subIdx hwps hlt),
    headD_drop]

theorem sceneSub_fst_start (sec : ScriptSection) (sw : List WordTimestamp)
    (wps numSubs subIdx : Nat) (hwps : 1 ≤ wps)
    (hlt : subIdx * wps < sw.length) :
    (sceneSub sec sw wps numSubs subIdx).2.1 =
      (sw.getD (subIdx * wps) default).start_ms := by
  unfold sceneSub
  dsimp only
  rw [sceneChunk_headD sw wps numSubs subIdx hwps hlt]

theorem sceneLoop_length_le (sec : ScriptSection) (sw : List WordTimestamp)
    (wps numSubs rem subIdx : Nat) :
    (sceneLoop sec sw wps numSubs rem subIdx).length ≤ rem := by
  induction rem generalizing subIdx with
  | zero => simp [sceneLoop]
  | succ rem ih =>
    simp only [sceneLoop]
    split
    · simp
    · simp only [List.length_cons]
      exact Nat.succ_le_succ (ih (subIdx + 1))

theorem sceneLoop_timing_mem (sec : ScriptSection) (sw : List WordTimestamp)
    (wps numSubs : Nat) (hwps : 1 ≤ wps) (rem subIdx : Nat) :
    ∀ x ∈ sceneLoop sec sw wps numSubs rem subIdx,
      (∃ w ∈ sw, x.2.1 = w.start_ms) ∧ ∃ w ∈ sw, x.2.2 = w.end_ms := by
  induction rem generalizing subIdx with
  | zero =>
    intro x hx
    simp [sceneLoop] at hx
  | succ rem ih =>
    intro x hx
    simp only [sceneLoop] at hx
    split at hx
    · simp at hx
    · rcases List.mem_cons.mp hx with h1 | h1
      · subst h1
        have hlt : subIdx * wps < sw.length := Nat.lt_of_not_le (by assumption)
        have hne := sceneChunk_ne_nil sw wps numSubs subIdx hwps hlt
        constructor
        · exact ⟨_, sceneChunk_subset sw wps numSubs subIdx _
            (headD_mem _ default hne), rfl⟩
        · exact ⟨_, sceneChunk_subset sw wps numSubs subIdx _
            (getLastD_mem _ default hne), rfl⟩
      · exact ih (subIdx + 1) x h1

theorem sceneLoop_chain (sec : ScriptSection) (sw : List WordTimestamp)
    (wps numSubs : Nat) (hwps : 1 ≤ wps)
    (hsort : List.Pairwise (fun a b : WordTimestamp =>
      a.start_ms ≤ b.start_ms) sw) (rem subIdx : Nat) :
    List.Chain' (fun a b => a.2.1 ≤ b.2.1)
      (sceneLoop sec sw wps numSubs rem subIdx) := by
  induction rem generalizing subIdx with
  | zero => exact List.chain'_nil
  | succ rem ih =>
    simp only [sceneLoop]
    split
    · exact List.chain'_nil
    · rename_i hle0
      have hlt : subIdx * wps < sw.length := Nat.lt_of_not_le hle0
      rw [List.chain'_cons']
      refine ⟨?_, ih (subIdx + 1)⟩
      intro y hy
      cases rem with
      | zero => simp [sceneLoop] at hy
      | succ rem2 =>
        simp only [sceneLoop] at hy
        split at hy
        · simp at hy
        · rename_i hle1
          have hlt2 : (subIdx + 1) * wps < sw.length := Nat.lt_of_not_le hle1
          simp only [List.head?_cons, Option.mem_some_iff] at hy
          rw [← hy, sceneSub_fst_start sec sw wps numSubs subIdx hwps hlt,
            sceneSub_fst_start sec sw wps numSubs (subIdx + 1) hwps hlt2]
          exact pairwise_getD_mono _ sw hsort _ _ default
            (Nat.mul_le_mul_right wps (Nat.le_succ subIdx)) hlt2

/-- Claim C5, amended.  Every entry emitted by the Scene Duration Splitter
for a scene either is the scene unchanged (kept when its duration is within
`target × 1.3`, or when no words fall in its ±200 ms window) or, when
produced by splitting, has a TimeRange lying inside
`[scene.start_ms - 200, scene.end_ms + 200]` (so its duration is at most
the scene duration + 400 ms).  The `target_duration_ms × 1.3 + ε` duration
bound claimed for split sub-scenes does NOT hold (see `C5_counterexample`):
chunks are formed by word count, not by duration. -/
theorem C5_amended (sec : ScriptSection) (timing : Int × Int)
    (words : List WordTimestamp) (target : Int) :
    ∀ x ∈ processScene sec timing words target,
      x.2 = timing ∨
      (timing.1 - 200 ≤ x.2.1 ∧ x.2.2 ≤ timing.2 + 200) := by
  intro x hx
  unfold processScene at hx
  dsimp only at hx
  split at hx
  · rw [List.mem_singleton] at hx
    subst hx
    exact Or.inl rfl
  · split at hx
    · rw [List.mem_singleton] at hx
      subst hx
      exact Or.inl rfl
    · right
      obtain ⟨⟨w1, hw1, he1⟩, w2, hw2, he2⟩ :=
        sceneLoop_timing_mem sec _ _ _ (Nat.le_max_left 1 _) _ _ x hx
      rw [he1, he2]
      have h1 := (List.mem_filter.mp hw1).2
      have h2 := (List.mem_filter.mp hw2).2
      simp only [Bool.and_eq_true, decide_eq_true_eq] at h1 h2
      exact ⟨h1.1, h2.2⟩

/-- Witness for C5_amended at a concrete split scene. -/
theorem C5_amended_witness :
    ((⟨⟨[], ['다']⟩, ((200 : Int), (100000 : Int))⟩ :
        ScriptSection × (Int × Int)) ∈
      processScene ⟨[], ['가']⟩ (0, 100000)
        [⟨['가'], 0, 100⟩, ⟨['나'], 100, 200⟩, ⟨['다'], 200, 100000⟩]
        15000) ∧
    (((200 : Int), (100000 : Int)) = ((0 : Int), (100000 : Int)) ∨
      ((0 : Int) - 200 ≤ (200 : Int) ∧
        (100000 : Int) ≤ (100000 : Int) + 200)) :=
  ⟨by decide,
   C5_amended ⟨[], ['가']⟩ (0, 100000)
     [⟨['가'], 0, 100⟩, ⟨['나'], 100, 200⟩, ⟨['다'], 200, 100000⟩] 15000
     ⟨⟨[], ['다']⟩, ((200 : Int), (100000 : Int))⟩ (by decide)⟩

/-- Claim C10.  When a scene is actually split (its duration exceeds
`target × 1.3` and its ±200 ms word window is non-empty), given words
ordered by `start_ms` non-decreasing with `start_ms ≤ end_ms` each, the
emitted sub-scenes are in non-decreasing `start_ms` order, each within
`[scene.start_ms - 200, scene.end_ms + 200]`, and at most
`num_subs = max(2, round(duration / target))` of them are emitted. -/
theorem C10_split_invariants (sec : ScriptSection) (timing : Int × Int)
    (words : List WordTimestamp) (target : Int)
    (hsort : List.Pairwise (fun a b : WordTimestamp =>
      a.start_ms ≤ b.start_ms) words)
    (hwf : ∀ w ∈ words, w.start_ms ≤ w.end_ms)
    (hsplit : ¬ (10 * (timing.2 - timing.1) ≤ 13 * target))
    (hsw : words.filter (fun w =>
      timing.1 - 200 ≤ w.start_ms && w.end_ms ≤ timing.2 + 200) ≠ []) :
    List.Chain' (fun a b => a.2.1 ≤ b.2.1)
      (processScene sec timing words target) ∧
    (∀ x ∈ processScene sec timing words target,
      timing.1 - 200 ≤ x.2.1 ∧ x.2.2 ≤ timing.2 + 200) ∧
    (processScene sec timing words target).length ≤
      max 2 (pyRound (timing.2 - timing.1).toNat target.toNat) := by
  have hsub : ∀ w ∈ words.filter (fun w =>
      timing.1 - 200 ≤ w.start_ms && w.end_ms ≤ timing.2 + 200), w ∈ words :=
    fun w hw => (List.mem_filter.mp hw).1
  unfold processScene
  dsimp only
  rw [if_neg hsplit, if_neg hsw]
  refine ⟨?_, ?_, ?_⟩
  · exact sceneLoop_chain sec _ _ _ (Nat.le_max_left 1 _)
      (List.Pairwise.sublist (List.filter_sublist _) hsort) _ _
  · intro x hx
    obtain ⟨⟨w1, hw1, he1⟩, w2, hw2, he2⟩ :=
      sceneLoop_timing_mem sec _ _ _ (Nat.le_max_left 1 _) _ _ x hx
    rw [he1, he2]
    have h1 := (List.mem_filter.mp hw1).2
    have h2 := (List.mem_filter.mp hw2).2
    simp only [Bool.and_eq_true, decide_eq_true_eq] at h1 h2
    exact ⟨h1.1, h2.2⟩
  · exact sceneLoop_length_le sec _ _ _ _ _

/-- Witness for C10_split_invariants at a concrete split scene. -/
theorem C10_split_invariants_witness :
    List.Pairwise (fun a b : WordTimestamp => a.start_ms ≤ b.start_ms)
      [⟨['가'], 0, 100⟩, ⟨['나'], 100, 200⟩, ⟨['다'], 200, 100000⟩] ∧
    (∀ w ∈ ([⟨['가'], 0, 100⟩, ⟨['나'], 100, 200⟩,
        ⟨['다'], 200, 100000⟩] : List WordTimestamp),
      w.start_ms ≤ w.end_ms) ∧
    ¬ (10 * (((0 : Int), (100000 : Int)).2 - ((0 : Int), (100000 : Int)).1) ≤
      13 * (15000 : Int)) ∧
    (List.Chain' (fun a b => a.2.1 ≤ b.2.1)
      (processScene ⟨[], ['가']⟩ (0, 100000)
        [⟨['가'], 0, 100⟩, ⟨['나'], 100, 200⟩, ⟨['다'], 200, 100000⟩]
        15000) ∧
    (∀ x ∈ processScene ⟨[], ['가']⟩ (0, 100000)
        [⟨['가'], 0, 100⟩, ⟨['나'], 100, 200⟩, ⟨['다'], 200, 100000⟩] 15000,
      ((0 : Int), (100000 : Int)).1 - 200 ≤ x.2.1 ∧
        x.2.2 ≤ ((0 : Int), (100000 : Int)).2 + 200) ∧
    (processScene ⟨[], ['가']⟩ (0, 100000)
        [⟨['가'], 0, 100⟩, ⟨['나'], 100, 200⟩, ⟨['다'], 200, 100000⟩]
        15000).length ≤
      max 2 (pyRound (((0 : Int), (100000 : Int)).2 -
        ((0 : Int), (100000 : Int)).1).toNat (15000 : Int).toNat)) :=
  ⟨by decide, by decide, by decide,
   C10_split_invariants ⟨[], ['가']⟩ (0, 100000)
     [⟨['가'], 0, 100⟩, ⟨['나'], 100, 200⟩, ⟨['다'], 200, 100000⟩] 15000
     (by decide) (by decide) (by decide) (by decide)⟩

theorem distNext_eq_min (e nw : Nat) (h : 0 < nw) :
    distNext e nw = min (e + 1) (nw - 1) := by
  unfold distNext
  rw [Nat.min_def]
  split_ifs <;> omega

theorem distEnd_last (c total nw wi : Nat) (hnw : 0 < nw)
    (hwi : wi ≤ nw - 1) : distEnd c true total nw wi = nw - 1 := by
  unfold distEnd
  dsimp only
  rw [if_pos rfl]
  split_ifs <;> omega

theorem distIdx_chain_contig (counts : List Nat) (total nw : Nat)
    (hnw : 0 < nw) :
    ∀ wi, wi ≤ nw - 1 →
      List.Chain' (fun p q => q.1 = min (p.2 + 1) (nw - 1))
        (distIdx counts total nw wi) := by
  induction counts with
  | nil =>
    intro wi hwi
    exact List.chain'_nil
  | cons c rest ih =>
    intro wi hwi
    simp only [distIdx]
    rw [List.chain'_cons']
    refine ⟨?_, ih _ (distNext_le _ nw hnw)⟩
    intro y hy
    cases rest with
    | nil => simp [distIdx] at hy
    | cons c2 rest2 =>
      simp only [distIdx, List.head?_cons, Option.mem_some_iff] at hy
      rw [← hy]
      exact distNext_eq_min _ nw hnw

theorem distIdx_getLast (counts : List Nat) (total nw : Nat) (hnw : 0 < nw) :
    ∀ wi, wi ≤ nw - 1 → counts ≠ [] →
      ((distIdx counts total nw wi).getLastD (0, 0)).2 = nw - 1 := by
  induction counts with
  | nil =>
    intro wi hwi hc
    cases hc rfl
  | cons c rest ih =>
    intro wi hwi hc
    cases rest with
    | nil =>
      show ((distIdx [c] total nw wi).getLastD (0, 0)).2 = nw - 1
      simp only [distIdx, List.getLastD_cons, List.getLastD_nil]
      exact distEnd_last c total nw wi hnw hwi
    | cons c2 rest2 =>
      rw [show distIdx (c :: c2 :: rest2) total nw wi =
        (wi, distEnd c (c2 :: rest2).isEmpty total nw wi) ::
          distIdx (c2 :: rest2) total nw
            (distNext (distEnd c (c2 :: rest2).isEmpty total nw wi) nw)
        from rfl]
      rw [getLastD_cons_ne _ _ _ (by simp [distIdx])]
      exact ih _ (distNext_le _ nw hnw) (by simp)

theorem distIdx_chain_fst (counts : List Nat) (total nw : Nat)
    (hnw : 0 < nw) :
    ∀ wi, wi ≤ nw - 1 →
      List.Chain' (fun p q => p.1 ≤ q.1 ∧ p.1 ≤ nw - 1 ∧ q.1 ≤ nw - 1)
        (distIdx counts total nw wi) := by
  induction counts with
  | nil =>
    intro wi hwi
    exact List.chain'_nil
  | cons c rest ih =>
    intro wi hwi
    simp only [distIdx]
    rw [List.chain'_cons']
    refine ⟨?_, ih _ (distNext_le _ nw hnw)⟩
    intro y hy
    cases rest with
    | nil => simp [distIdx] at hy
    | cons c2 rest2 =>
      simp only [distIdx, List.head?_cons, Option.mem_some_iff] at hy
      rw [← hy]
      refine ⟨?_, hwi, distNext_le _ nw hnw⟩
      exact le_distNext _ nw wi hwi (le_distEnd c _ total nw wi hwi)

theorem chain'_map_const {α : Type} (l : List α) (c : Int × Int) :
    List.Chain' (fun r t : Int × Int => r.1 ≤ t.1) (l.map fun _ => c) := by
  induction l with
  | nil => exact List.chain'_nil
  | cons a t ih =>
    cases t with
    | nil => simp
    | cons b t2 =>
      simp only [List.map_cons] at ih ⊢
      rw [List.chain'_cons]
      exact ⟨le_refl _, ih⟩

theorem segSubtitles_chain (seg : SegmentTimestamp)
    (words : List WordTimestamp) (mw : Nat)
    (hsort : List.Pairwise (fun a b : WordTimestamp =>
      a.start_ms ≤ b.start_ms) words) :
    List.Chain' (fun r t : Int × Int => r.1 ≤ t.1)
      (segSubtitles seg words mw).2 := by
  unfold segSubtitles
  dsimp only
  split
  · exact List.chain'_nil
  · split
    · exact List.chain'_nil
    · split
      · exact chain'_map_const _ _
      · rename_i h3
        have hne : segWordsOf seg words ≠ [] := fun h0 => h3 (Or.inr h0)
        have hnw : 0 < (segWordsOf seg words).length := List.length_pos.mpr hne
        have hps : List.Pairwise (fun a b : WordTimestamp =>
            a.start_ms ≤ b.start_ms) (segWordsOf seg words) :=
          List.Pairwise.sublist (List.filter_sublist _) hsort
        rw [List.chain'_map]
        refine List.Chain'.imp ?_
          (distIdx_chain_fst _ _ (segWordsOf seg words).length hnw 0
            (by omega))
        intro a b hab
        exact pairwise_getD_mono _ (segWordsOf seg words) hps
          a.1 b.1 default hab.1 (by omega)

/-- Claim C6, amended.  For one segment: (1) if there is exactly one text
part or no words fall in the ±200 ms window, every part receives the
segment's own `(start_ms, end_ms)` unchanged; (2) consecutive parts'
word-index ranges obey `next.start = min(prev.end + 1, len(seg_words)-1)`
— the start is clamped back to the last word once the words are exhausted,
so ranges need NOT be contiguous (see `C6_counterexample`); (3) the last
part's range always ends at the last in-window word
(`end_word_idx = len(seg_words) - 1`); (4) with words sorted by `start_ms`,
the emitted TimeRanges are non-decreasing in `start_ms` across parts. -/
theorem C6_amended :
    (∀ (seg : SegmentTimestamp) (words : List WordTimestamp) (mw : Nat),
      ((split_text_only (strip seg.text) mw).length = 1 ∨
        segWordsOf seg words = []) →
      (segSubtitles seg words mw).2 =
        (split_text_only (strip seg.text) mw).map
          (fun _ => (seg.start_ms, seg.end_ms))) ∧
    (∀ (counts : List Nat) (total nw wi : Nat), 0 < nw → wi ≤ nw - 1 →
      List.Chain' (fun p q => q.1 = min (p.2 + 1) (nw - 1))
        (distIdx counts total nw wi)) ∧
    (∀ (counts : List Nat) (total nw wi : Nat), 0 < nw → wi ≤ nw - 1 →
      counts ≠ [] →
      ((distIdx counts total nw wi).getLastD (0, 0)).2 = nw - 1) ∧
    (∀ (seg : SegmentTimestamp) (words : List WordTimestamp) (mw : Nat),
      List.Pairwise (fun a b : WordTimestamp =>
        a.start_ms ≤ b.start_ms) words →
      List.Chain' (fun r t : Int × Int => r.1 ≤ t.1)
        (segSubtitles seg words mw).2) := by
  refine ⟨?_, ?_, ?_, ?_⟩
  · intro seg words mw hcond
    unfold segSubtitles
    dsimp only
    split
    · rename_i h0
      rw [h0]
      simp [split_text_only, strip]
    · by_cases h1 : split_text_only (strip seg.text) mw = []
      · rw [if_pos h1, h1]
        simp
      · rw [if_neg h1]
  · intro counts total nw wi h1 h2
    exact distIdx_chain_contig counts total nw h1 wi h2
  · intro counts total nw wi h1 h2 h3
    exact distIdx_getLast counts total nw h1 wi h2 h3
  · intro seg words mw hsort
    exact segSubtitles_chain seg words mw hsort

set_option maxHeartbeats 2000000 in
/-- Witness for C6_amended at concrete inputs. -/
theorem C6_amended_witness :
    (((split_text_only (strip ['a']) 9).length = 1 ∨
        segWordsOf ⟨['a'], 0, 1000⟩ [] = []) ∧
      (segSubtitles ⟨['a'], 0, 1000⟩ [] 9).2 =
        (split_text_only (strip ['a']) 9).map (fun _ => ((0 : Int), (1000 : Int)))) ∧
    ((0 : Nat) < 2 ∧ (0 : Nat) ≤ 2 - 1 ∧
      List.Chain' (fun p q => q.1 = min (p.2 + 1) (2 - 1))
        (distIdx [1, 1, 1] 3 2 0)) ∧
    (([1, 1, 1] : List Nat) ≠ [] ∧
      ((distIdx [1, 1, 1] 3 2 0).getLastD (0, 0)).2 = 2 - 1) ∧
    (List.Pairwise (fun a b : WordTimestamp => a.start_ms ≤ b.start_ms)
      ([⟨['a'], 0, 500⟩, ⟨['b'], 500, 1000⟩] : List WordTimestamp) ∧
      List.Chain' (fun r t : Int × Int => r.1 ≤ t.1)
        (segSubtitles ⟨['a', '.', ' ', 'b', '.', ' ', 'c'], 0, 1000⟩
          [⟨['a'], 0, 500⟩, ⟨['b'], 500, 1000⟩] 9).2) :=
  ⟨⟨Or.inl (by decide),
    C6_amended.1 ⟨['a'], 0, 1000⟩ [] 9 (Or.inl (by decide))⟩,
   ⟨by decide, by decide, C6_amended.2.1 [1, 1, 1] 3 2 0 (by decide) (by decide)⟩,
   ⟨by decide, C6_amended.2.2.1 [1, 1, 1] 3 2 0 (by decide) (by decide) (by decide)⟩,
   ⟨by decide, C6_amended.2.2.2 ⟨['a', '.', ' ', 'b', '.', ' ', 'c'], 0, 1000⟩
     [⟨['a'], 0, 500⟩, ⟨['b'], 500, 1000⟩] 9 (by decide)⟩⟩

/-- Total length of a list of tokens (abbreviation used in the splitter
proofs). -/
def sumLen (l : List (List Char)) : Nat :=
  (l.map List.length).sum

theorem sumLen_append (a b : List (List Char)) :
    sumLen (a ++ b) = sumLen a + sumLen b := by
  unfold sumLen
  rw [List.map_append, List.sum_append]

theorem nsc_append (a b : List Char) : nsc (a ++ b) = nsc a ++ nsc b := by
  unfold nsc
  rw [List.filter_append]

theorem nsc_dropWhile (l : List Char) :
    nsc (l.dropWhile isSpaceChar) = nsc l := by
  induction l with
  | nil => rfl
  | cons c t ih =>
    by_cases hc : isSpaceChar c = true
    · rw [List.dropWhile_cons_of_pos hc, ih]
      unfold nsc
      rw [List.filter_cons_of_neg (by simp [hc])]
    · rw [List.dropWhile_cons_of_neg hc]

theorem nsc_reverse (l : List Char) : nsc l.reverse = (nsc l).reverse :=
  List.filter_reverse _ l

theorem nsc_strip (t : List Char) : nsc (strip t) = nsc t := by
  unfold strip
  rw [nsc_reverse, nsc_dropWhile, nsc_reverse, List.reverse_reverse,
    nsc_dropWhile]

theorem strip_length_le (t : List Char) : (strip t).length ≤ t.length := by
  unfold strip
  calc ((((t.dropWhile isSpaceChar).reverse).dropWhile
        isSpaceChar).reverse).length =
      (((t.dropWhile isSpaceChar).reverse).dropWhile isSpaceChar).length :=
      List.length_reverse _
    _ ≤ ((t.dropWhile isSpaceChar).reverse).length :=
      (List.dropWhile_sublist _).length_le
    _ = (t.dropWhile isSpaceChar).length := List.length_reverse _
    _ ≤ t.length := (List.dropWhile_sublist _).length_le

theorem nsc_of_strip_eq_nil (t : List Char) (h : strip t = []) :
    nsc t = [] := by
  rw [← nsc_strip, h]
  rfl

theorem splitWsAux_flatten (cs : List Char) :
    ∀ (cur : List Char) (acc : List (List Char)),
      (splitWsAux cs cur acc).flatten = acc.flatten ++ cur ++ nsc cs := by
  induction cs with
  | nil =>
    intro cur acc
    simp only [splitWsAux]
    split
    · rename_i h
      subst h
      simp [nsc]
    · simp [nsc]
  | cons c rest ih =>
    intro cur acc
    simp only [splitWsAux]
    by_cases hc : isSpaceChar c = true
    · rw [if_pos hc]
      have hnc : nsc (c :: rest) = nsc rest := by
        unfold nsc
        rw [List.filter_cons_of_neg (by simp [hc])]
      split
      · rename_i h
        subst h
        rw [ih [] acc, hnc]
      · rw [ih [] (acc ++ [cur]), hnc]
        simp
    · rw [if_neg hc]
      have hnc : nsc (c :: rest) = c :: nsc rest := by
        unfold nsc
        rw [List.filter_cons_of_pos (by simp [hc])]
      rw [ih (cur ++ [c]) acc, hnc]
      simp

theorem splitWs_flatten (t : List Char) : (splitWs t).flatten = nsc t := by
  unfold splitWs
  rw [splitWsAux_flatten t [] []]
  rfl

theorem splitWsAux_tokens (cs : List Char) :
    ∀ (cur : List Char) (acc : List (List Char)),
      (∀ x ∈ cur, isSpaceChar x = false) →
      (∀ tok ∈ acc, tok ≠ [] ∧ ∀ x ∈ tok, isSpaceChar x = false) →
      ∀ tok ∈ splitWsAux cs cur acc,
        tok ≠ [] ∧ ∀ x ∈ tok, isSpaceChar x = false := by
  induction cs with
  | nil =>
    intro cur acc hcur hacc tok htok
    simp only [splitWsAux] at htok
    split at htok
    · exact hacc tok htok
    · rcases List.mem_append.mp htok with h | h
      · exact hacc tok h
      · rw [List.mem_singleton] at h
        subst h
        exact ⟨by assumption, hcur⟩
  | cons c rest ih =>
    intro cur acc hcur hacc tok htok
    simp only [splitWsAux] at htok
    by_cases hc : isSpaceChar c = true
    · rw [if_pos hc] at htok
      split at htok
      · exact ih [] acc (by simp) hacc tok htok
      · refine ih [] (acc ++ [cur]) (by simp) ?_ tok htok
        intro tok2 htok2
        rcases List.mem_append.mp htok2 with h | h
        · exact hacc tok2 h
        · rw [List.mem_singleton] at h
          subst h
          exact ⟨by assumption, hcur⟩
    · rw [if_neg hc] at htok
      refine ih (cur ++ [c]) acc ?_ hacc tok htok
      intro x hx
      rcases List.mem_append.mp hx with h | h
      · exact hcur x h
      · rw [List.mem_singleton] at h
        subst h
        exact Bool.eq_false_iff.mpr hc

theorem splitWs_tokens (t : List Char) :
    ∀ tok ∈ splitWs t, tok ≠ [] ∧ ∀ x ∈ tok, isSpaceChar x = false := by
  unfold splitWs
  exact splitWsAux_tokens t [] [] (by simp) (by simp)

theorem splitWsAux_sumLen (cs : List Char) :
    ∀ (cur : List Char) (acc : List (List Char)),
      sumLen (splitWsAux cs cur acc) + (splitWsAux cs cur acc).length ≤
        sumLen acc + acc.length + cur.length + cs.length + 1 := by
  induction cs with
  | nil =>
    intro cur acc
    simp only [splitWsAux]
    split
    · omega
    · rw [sumLen_append, List.length_append]
      simp only [sumLen, List.map_cons, List.map_nil, List.sum_cons,
        List.sum_nil, List.length_cons, List.length_nil]
      omega
  | cons c rest ih =>
    intro cur acc
    simp only [splitWsAux]
    by_cases hc : isSpaceChar c = true
    · rw [if_pos hc]
      split
      · rename_i h
        subst h
        have h2 := ih [] acc
        simp only [List.length_nil, List.length_cons] at h2 ⊢
        omega
      · have h2 := ih [] (acc ++ [cur])
        rw [sumLen_append, List.length_append] at h2
        simp only [sumLen, List.map_cons, List.map_nil, List.sum_cons,
          List.sum_nil, List.length_cons, List.length_nil] at h2 ⊢
        omega
    · rw [if_neg hc]
      have h2 := ih (cur ++ [c]) acc
      rw [List.length_append] at h2
      simp only [List.length_cons, List.length_nil] at h2 ⊢
      omega

theorem splitWs_sumLen (t : List Char) :
    sumLen (splitWs t) + (splitWs t).length ≤ t.length + 1 := by
  unfold splitWs
  have h2 := splitWsAux_sumLen t [] []
  simpa [sumLen] using h2

theorem joinSpace_length (l : List (List Char)) (h : l ≠ []) :
    (joinSpace l).length + 1 = sumLen l + l.length := by
  induction l with
  | nil => cases h rfl
  | cons x xs ih =>
    cases xs with
    | nil => simp [joinSpace, sumLen]
    | cons y t =>
      have h2 := ih (by simp)
      show (x ++ ' ' :: joinSpace (y :: t)).length + 1 =
        sumLen (x :: y :: t) + (x :: y :: t).length
      rw [List.length_append]
      simp only [sumLen, List.map_cons, List.sum_cons, List.length_cons] at h2 ⊢
      omega

theorem joinSpace_nsc (l : List (List Char)) :
    nsc (joinSpace l) = (l.map nsc).flatten := by
  induction l with
  | nil => rfl
  | cons x xs ih =>
    cases xs with
    | nil => simp [joinSpace]
    | cons y t =>
      show nsc (x ++ ' ' :: joinSpace (y :: t)) = _
      rw [nsc_append]
      have hsp : nsc (' ' :: joinSpace (y :: t)) = nsc (joinSpace (y :: t)) := by
        unfold nsc
        rw [List.filter_cons_of_neg (by decide)]
      rw [hsp, ih]
      simp

theorem joinSpace_ne_nil (l : List (List Char)) (h : l ≠ [])
    (htok : ∀ tok ∈ l, tok ≠ []) : joinSpace l ≠ [] := by
  cases l with
  | nil => cases h rfl
  | cons x xs =>
    cases xs with
    | nil => exact htok x (by simp)
    | cons y t =>
      show x ++ ' ' :: joinSpace (y :: t) ≠ []
      simp

theorem splitWsAux_chunk (w : List Char) :
    ∀ (cs2 cur : List Char) (acc : List (List Char)),
      (∀ x ∈ w, isSpaceChar x = false) →
      splitWsAux (w ++ cs2) cur acc = splitWsAux cs2 (cur ++ w) acc := by
  induction w with
  | nil =>
    intro cs2 cur acc _
    simp
  | cons c w2 ih =>
    intro cs2 cur acc hw
    have hc : isSpaceChar c = false := hw c (by simp)
    show splitWsAux (c :: (w2 ++ cs2)) cur acc = _
    simp only [splitWsAux, hc]
    rw [ih cs2 (cur ++ [c]) acc (fun x hx => hw x (by simp [hx])),
      List.append_assoc]
    rfl

theorem splitWsAux_join (l : List (List Char)) :
    ∀ acc : List (List Char),
      (∀ tok ∈ l, tok ≠ [] ∧ ∀ x ∈ tok, isSpaceChar x = false) →
      splitWsAux (joinSpace l) [] acc = acc ++ l := by
  induction l with
  | nil =>
    intro acc _
    simp [joinSpace, splitWsAux]
  | cons x xs ih =>
    intro acc htok
    have hx := htok x (by simp)
    cases xs with
    | nil =>
      show splitWsAux (joinSpace [x]) [] acc = acc ++ [x]
      have : joinSpace [x] = x ++ [] := by simp [joinSpace]
      rw [this, splitWsAux_chunk x [] [] acc hx.2]
      simp only [splitWsAux, List.nil_append]
      rw [if_neg hx.1]
    | cons y t =>
      show splitWsAux (x ++ ' ' :: joinSpace (y :: t)) [] acc = _
      rw [splitWsAux_chunk x (' ' :: joinSpace (y :: t)) [] acc hx.2]
      show splitWsAux (' ' :: joinSpace (y :: t)) x acc = _
      simp only [splitWsAux, show isSpaceChar ' ' = true from rfl, if_true]
      rw [if_neg hx.1,
        ih (acc ++ [x]) (fun tok h2 => htok tok (by simp [h2]))]
      simp

theorem splitWs_joinSpace (l : List (List Char))
    (htok : ∀ tok ∈ l, tok ≠ [] ∧ ∀ x ∈ tok, isSpaceChar x = false) :
    splitWs (joinSpace l) = l := by
  unfold splitWs
  rw [splitWsAux_join l [] htok]
  rfl

theorem punct_not_space (c : Char) (h : isPunctChar c = true) :
    isSpaceChar c = false := by
  unfold isPunctChar at h
  simp only [Bool.or_eq_true, beq_iff_eq] at h
  rcases h with ((h | h) | h) | h <;> subst h <;> decide

theorem nsc_cons_split (c : Char) (rest : List Char) :
    nsc (c :: rest) = nsc [c] ++ nsc rest := by
  rw [← List.singleton_append, nsc_append]

theorem sopAux_nsc (cs : List Char) :
    ∀ (cur : List Char) (parts : List (List Char)),
      ((splitOnPunctuationAux cs cur parts).map nsc).flatten =
        (parts.map nsc).flatten ++ nsc cur ++ nsc cs := by
  induction cs with
  | nil =>
    intro cur parts
    simp only [splitOnPunctuationAux]
    split
    · rename_i h
      rw [nsc_of_strip_eq_nil cur h]
      simp [nsc]
    · rw [List.map_append, List.flatten_append]
      simp only [List.map_cons, List.map_nil, List.flatten_cons,
        List.flatten_nil, List.append_nil, nsc_strip]
      rw [show nsc ([] : List Char) = [] from rfl]
      simp
  | cons c rest ih =>
    intro cur parts
    simp only [splitOnPunctuationAux]
    by_cases hp : isPunctChar c = true
    · rw [if_pos hp]
      have hcs : nsc [c] = [c] := by
        unfold nsc
        rw [List.filter_cons_of_pos (by simp [punct_not_space c hp])]
        rfl
      have hnsc : nsc (cur ++ [c]) = nsc cur ++ [c] := by
        rw [nsc_append, hcs]
      have hpne : strip (cur ++ [c]) ≠ [] := by
        intro h0
        have h1 := nsc_of_strip_eq_nil _ h0
        rw [hnsc] at h1
        simp at h1
      rw [if_neg hpne, ih [] (parts ++ [strip (cur ++ [c])])]
      rw [List.map_append, List.flatten_append]
      simp only [List.map_cons, List.map_nil, List.flatten_cons,
        List.flatten_nil, List.append_nil, nsc_strip, hnsc]
      rw [nsc_cons_split c rest, hcs]
      simp [List.append_assoc, nsc]
    · rw [if_neg hp]
      rw [ih (cur ++ [c]) parts, nsc_append, nsc_cons_split c rest]
      simp [List.append_assoc]

theorem sopAux_nonempty (cs : List Char) :
    ∀ (cur : List Char) (parts : List (List Char)),
      (∀ p ∈ parts, p ≠ []) →
      ∀ p ∈ splitOnPunctuationAux cs cur parts, p ≠ [] := by
  induction cs with
  | nil =>
    intro cur parts hparts p hp
    simp only [splitOnPunctuationAux] at hp
    split at hp
    · exact hparts p hp
    · rcases List.mem_append.mp hp with h | h
      · exact hparts p h
      · rw [List.mem_singleton] at h
        subst h
        assumption
  | cons c rest ih =>
    intro cur parts hparts p hp
    simp only [splitOnPunctuationAux] at hp
    by_cases hc : isPunctChar c = true
    · rw [if_pos hc] at hp
      split at hp
      · exact ih [] parts hparts p hp
      · refine ih [] (parts ++ [strip (cur ++ [c])]) ?_ p hp
        intro q hq
        rcases List.mem_append.mp hq with h | h
        · exact hparts q h
        · rw [List.mem_singleton] at h
          subst h
          assumption
    · rw [if_neg hc] at hp
      exact ih (cur ++ [c]) parts hparts p hp

theorem sopAux_sumLen (cs : List Char) :
    ∀ (cur : List Char) (parts : List (List Char)),
      sumLen (splitOnPunctuationAux cs cur parts) ≤
        sumLen parts + cur.length + cs.length := by
  induction cs with
  | nil =>
    intro cur parts
    simp only [splitOnPunctuationAux]
    split
    · omega
    · rw [sumLen_append]
      have h1 := strip_length_le cur
      simp only [sumLen, List.map_cons, List.map_nil, List.sum_cons,
        List.sum_nil, List.length_nil]
      omega
  | cons c rest ih =>
    intro cur parts
    simp only [splitOnPunctuationAux]
    by_cases hc : isPunctChar c = true
    · rw [if_pos hc]
      split
      · have h2 := ih [] parts
        simp only [List.length_nil, List.length_cons] at h2 ⊢
        omega
      · have h2 := ih [] (parts ++ [strip (cur ++ [c])])
        rw [sumLen_append] at h2
        have h3 := strip_length_le (cur ++ [c])
        rw [List.length_append] at h3
        simp only [sumLen, List.map_cons, List.map_nil, List.sum_cons,
          List.sum_nil, List.length_nil, List.length_cons,
          List.length_singleton] at h2 h3 ⊢
        omega
    · rw [if_neg hc]
      have h2 := ih (cur ++ [c]) parts
      rw [List.length_append] at h2
      simp only [List.length_cons, List.length_nil] at h2 ⊢
      omega

theorem mem_le_sumLen (l : List (List Char)) (p : List Char) (hp : p ∈ l) :
    p.length ≤ sumLen l := by
  induction l with
  | nil => simp at hp
  | cons a t ih =>
    rcases List.mem_cons.mp hp with h | h
    · subst h
      simp [sumLen]
    · have := ih h
      simp only [sumLen, List.map_cons, List.sum_cons] at this ⊢
      omega

theorem one_le_sumLen (l : List (List Char)) (h : l ≠ [])
    (hne : ∀ p ∈ l, p ≠ []) : 1 ≤ sumLen l := by
  cases l with
  | nil => cases h rfl
  | cons a t =>
    have ha : a ≠ [] := hne a (by simp)
    have : 1 ≤ a.length := List.length_pos.mpr ha
    simp only [sumLen, List.map_cons, List.sum_cons]
    omega

theorem mem_lt_sumLen (l : List (List Char)) (hne : ∀ p ∈ l, p ≠ [])
    (hlen : 2 ≤ l.length) : ∀ p ∈ l, p.length + 1 ≤ sumLen l := by
  intro p hp
  cases l with
  | nil => simp at hp
  | cons a t =>
    have ht : t ≠ [] := by
      intro h0
      rw [h0] at hlen
      simp at hlen
    rcases List.mem_cons.mp hp with h | h
    · subst h
      have h1 := one_le_sumLen t ht (fun q hq => hne q (by simp [hq]))
      simp only [sumLen, List.map_cons, List.sum_cons] at h1 ⊢
      omega
    · have h1 := mem_le_sumLen t p h
      have h2 : 1 ≤ a.length := List.length_pos.mpr (hne a (by simp))
      simp only [sumLen, List.map_cons, List.sum_cons] at h1 ⊢
      omega

theorem splitOnPunctuation_some (t : List Char) (parts : List (List Char))
    (h : splitOnPunctuation t = some parts) :
    parts = splitOnPunctuationAux t [] [] ∧ 1 < parts.length := by
  unfold splitOnPunctuation at h
  dsimp only at h
  split at h
  · rename_i h2
    cases h
    exact ⟨rfl, h2⟩
  · cases h

theorem splitOnPunctuation_parts_nonempty (t : List Char)
    (parts : List (List Char)) (h : splitOnPunctuation t = some parts) :
    ∀ p ∈ parts, p ≠ [] := by
  rw [(splitOnPunctuation_some t parts h).1]
  exact sopAux_nonempty t [] [] (by simp)

theorem splitOnPunctuation_parts_lt (t : List Char)
    (parts : List (List Char)) (h : splitOnPunctuation t = some parts) :
    ∀ p ∈ parts, p.length < t.length := by
  obtain ⟨heq, hlen⟩ := splitOnPunctuation_some t parts h
  intro p hp
  have hne := splitOnPunctuation_parts_nonempty t parts h
  have h1 := mem_lt_sumLen parts hne (by omega) p hp
  have h2 : sumLen parts ≤ t.length := by
    rw [heq]
    have := sopAux_sumLen t [] []
    simpa [sumLen] using this
  omega

theorem splitOnPunctuation_nsc (t : List Char) (parts : List (List Char))
    (h : splitOnPunctuation t = some parts) :
    (parts.map nsc).flatten = nsc t := by
  rw [(splitOnPunctuation_some t parts h).1]
  have := sopAux_nsc t [] []
  simpa [nsc] using this

theorem joinSpace_drop_length_lt (t : List Char) (mw : Nat) (ht : t ≠ [])
    (h1m : 1 ≤ mw) (hml : mw ≤ (splitWs t).length) :
    (joinSpace ((splitWs t).drop mw)).length < t.length := by
  by_cases hd : (splitWs t).drop mw = []
  · rw [hd]
    show (joinSpace []).length < t.length
    have : 0 < t.length := List.length_pos.mpr ht
    simpa [joinSpace] using this
  · have h1 := joinSpace_length _ hd
    have h2 := splitWs_sumLen t
    have h3 : splitWs t = (splitWs t).take mw ++ (splitWs t).drop mw :=
      (List.take_append_drop mw (splitWs t)).symm
    have h4 : sumLen (splitWs t) =
        sumLen ((splitWs t).take mw) + sumLen ((splitWs t).drop mw) := by
      rw [← sumLen_append, ← h3]
    have h5 : (splitWs t).length =
        ((splitWs t).take mw).length + ((splitWs t).drop mw).length := by
      rw [← List.length_append, ← h3]
    have h6 : (splitWs t).take mw ≠ [] := by
      intro h0
      have h9 := congrArg List.length h0
      rw [List.length_take, List.length_nil, Nat.min_def] at h9
      split_ifs at h9 <;> omega
    have h7 : 1 ≤ sumLen ((splitWs t).take mw) :=
      one_le_sumLen _ h6
        (fun p hp => (splitWs_tokens t p (List.take_subset _ _ hp)).1)
    have h8 : 1 ≤ ((splitWs t).take mw).length := List.length_pos.mpr h6
    omega

theorem flatMap_nsc_flatten (fuel mw : Nat) (ps : List (List Char))
    (h : ∀ p ∈ ps, nsc (splitTextRecF fuel mw p).flatten = nsc p) :
    nsc ((ps.flatMap (fun p => splitTextRecF fuel mw p)).flatten) =
      (ps.map nsc).flatten := by
  induction ps with
  | nil => rfl
  | cons p ps2 ih =>
    rw [List.flatMap_cons, List.flatten_append, nsc_append,
      h p (by simp), List.map_cons, List.flatten_cons,
      ih (fun q hq => h q (by simp [hq]))]

theorem splitTextRecF_ne_nil (fuel : Nat) :
    ∀ (mw : Nat) (text : List Char), text.length < fuel →
      ∀ s ∈ splitTextRecF fuel mw text, s ≠ [] := by
  induction fuel with
  | zero =>
    intro mw text h
    exact absurd h (Nat.not_lt_zero _)
  | succ fuel ih =>
    intro mw text h s hs
    simp only [splitTextRecF] at hs
    by_cases ht : strip text = []
    · rw [if_pos ht] at hs
      simp at hs
    · rw [if_neg ht] at hs
      cases hsp : splitOnPunctuation (strip text) with
      | some parts =>
        rw [hsp] at hs
        dsimp only at hs
        rcases List.mem_flatMap.mp hs with ⟨p, hp, hsp2⟩
        have hlt := splitOnPunctuation_parts_lt _ parts hsp p hp
        have hsl := strip_length_le text
        exact ih mw p (by omega) s hsp2
      | none =>
        rw [hsp] at hs
        dsimp only at hs
        split at hs
        · rename_i hcond
          rcases List.mem_cons.mp hs with h1 | h1
          · subst h1
            apply joinSpace_ne_nil
            · intro h0
              have h9 := congrArg List.length h0
              rw [List.length_take, List.length_nil, Nat.min_def] at h9
              have := hcond.1
              have := hcond.2
              split_ifs at h9 <;> omega
            · intro tok htok
              exact (splitWs_tokens (strip text) tok
                (List.take_subset _ _ htok)).1
          · have hkey := joinSpace_drop_length_lt (strip text) mw ht
              hcond.1 hcond.2
            have hsl := strip_length_le text
            exact ih mw _ (by omega) s h1
        · rw [List.mem_singleton] at hs
          subst hs
          exact ht

theorem splitTextRecF_wordcount (fuel : Nat) :
    ∀ (mw : Nat) (text : List Char), text.length < fuel → 1 ≤ mw →
      ∀ s ∈ splitTextRecF fuel mw text, (splitWs s).length ≤ mw := by
  induction fuel with
  | zero =>
    intro mw text h
    exact absurd h (Nat.not_lt_zero _)
  | succ fuel ih =>
    intro mw text h hm s hs
    simp only [splitTextRecF] at hs
    by_cases ht : strip text = []
    · rw [if_pos ht] at hs
      simp at hs
    · rw [if_neg ht] at hs
      cases hsp : splitOnPunctuation (strip text) with
      | some parts =>
        rw [hsp] at hs
        dsimp only at hs
        rcases List.mem_flatMap.mp hs with ⟨p, hp, hsp2⟩
        have hlt := splitOnPunctuation_parts_lt _ parts hsp p hp
        have hsl := strip_length_le text
        exact ih mw p (by omega) hm s hsp2
      | none =>
        rw [hsp] at hs
        dsimp only at hs
        split at hs
        · rename_i hcond
          rcases List.mem_cons.mp hs with h1 | h1
          · subst h1
            rw [splitWs_joinSpace _
              (fun tok htok => splitWs_tokens (strip text) tok
                (List.take_subset _ _ htok))]
            rw [List.length_take]
            exact Nat.min_le_left mw _
          · have hkey := joinSpace_drop_length_lt (strip text) mw ht
              hcond.1 hcond.2
            have hsl := strip_length_le text
            exact ih mw _ (by omega) hm s h1
        · rename_i hcond
          rw [List.mem_singleton] at hs
          subst hs
          have h2 : ¬(mw ≤ (splitWs (strip text)).length) :=
            fun hx => hcond ⟨hm, hx⟩
          omega

theorem splitTextRecF_nsc (fuel : Nat) :
    ∀ (mw : Nat) (text : List Char), text.length < fuel →
      nsc (splitTextRecF fuel mw text).flatten = nsc text := by
  induction fuel with
  | zero =>
    intro mw text h
    exact absurd h (Nat.not_lt_zero _)
  | succ fuel ih =>
    intro mw text h
    simp only [splitTextRecF]
    by_cases ht : strip text = []
    · rw [if_pos ht, ← nsc_strip text, ht]
      rfl
    · rw [if_neg ht]
      cases hsp : splitOnPunctuation (strip text) with
      | some parts =>
        dsimp only
        rw [flatMap_nsc_flatten fuel mw parts (fun p hp => by
          have hlt := splitOnPunctuation_parts_lt _ parts hsp p hp
          have hsl := strip_length_le text
          exact ih mw p (by omega))]
        rw [splitOnPunctuation_nsc _ _ hsp, nsc_strip]
      | none =>
        dsimp only
        split
        · rename_i hcond
          rw [List.flatten_cons, nsc_append]
          rw [ih mw (joinSpace ((splitWs (strip text)).drop mw)) (by
            have hkey := joinSpace_drop_length_lt (strip text) mw ht
              hcond.1 hcond.2
            have hsl := strip_length_le text
            omega)]
          rw [joinSpace_nsc, joinSpace_nsc]
          rw [← List.flatten_append, ← List.map_append,
            List.take_append_drop]
          have hmap : (splitWs (strip text)).map nsc =
              splitWs (strip text) := by
            have h2 : ∀ tok ∈ splitWs (strip text), nsc tok = tok :=
              fun tok htok => List.filter_eq_self.mpr
                (fun c hc => by
                  simp [(splitWs_tokens _ tok htok).2 c hc])
            calc (splitWs (strip text)).map nsc =
                (splitWs (strip text)).map id := List.map_congr_left h2
              _ = splitWs (strip text) := List.map_id _
          rw [hmap, splitWs_flatten, nsc_strip]
        · rw [show ([strip text] : List (List Char)).flatten = strip text
            from by simp]
          exact nsc_strip text

/-- Claim C7.  For every text and every `max_words = n ≥ 1`, every span
emitted by the Recursive Text Splitter that contains no internal
punctuation has whitespace-token count at most `n` (in fact every emitted
span does: punctuation-free runs are cut into chunks of exactly `n` words
with a shorter final chunk). -/
theorem C7_wordcount_bound (text : List Char) (n : Nat) (hn : 1 ≤ n)
    (s : List Char) (hs : s ∈ split_text_only text n)
    (hp : ∀ c ∈ s, isPunctChar c = false) :
    (splitWs s).length ≤ n := by
  unfold split_text_only at hs
  dsimp only at hs
  split at hs
  · simp at hs
  · exact splitTextRecF_wordcount _ n (strip text) (by omega) hn s hs

/-- Witness for C7_wordcount_bound at a concrete input. -/
theorem C7_wordcount_bound_witness :
    (1 : Nat) ≤ 2 ∧
    (['a', ' ', 'b'] ∈ split_text_only ['a', ' ', 'b', ' ', 'c'] 2) ∧
    (∀ c ∈ (['a', ' ', 'b'] : List Char), isPunctChar c = false) ∧
    (splitWs ['a', ' ', 'b']).length ≤ 2 :=
  ⟨by decide, by decide, by decide,
   C7_wordcount_bound ['a', ' ', 'b', ' ', 'c'] 2 (by decide)
     ['a', ' ', 'b'] (by decide) (by decide)⟩

/-- Claim C8.  For every text and every `max_words = n ≥ 1`, concatenating
the spans of `split_text_only text n` reproduces every non-whitespace
character of the input exactly once and in order, and no emitted span is
empty. -/
theorem C8_reconstruction (text : List Char) (n : Nat) (hn : 1 ≤ n) :
    nsc (split_text_only text n).flatten = nsc text ∧
    ∀ s ∈ split_text_only text n, s ≠ [] := by
  unfold split_text_only
  dsimp only
  split
  · rename_i h0
    constructor
    · rw [← nsc_strip text, h0]
      rfl
    · intro s hs
      simp at hs
  · constructor
    · rw [splitTextRecF_nsc _ n (strip text) (by omega), nsc_strip]
    · exact splitTextRecF_ne_nil _ n (strip text) (by omega)

/-- Witness for C8_reconstruction at a concrete input. -/
theorem C8_reconstruction_witness :
    (1 : Nat) ≤ 9 ∧
    (nsc (split_text_only ['a', '.', ' ', 'b'] 9).flatten =
      nsc ['a', '.', ' ', 'b'] ∧
    ∀ s ∈ split_text_only ['a', '.', ' ', 'b'] 9, s ≠ []) :=
  ⟨by decide, C8_reconstruction ['a', '.', ' ', 'b'] 9 (by decide)⟩
